import Mathlib

/-!
Verification of the aggregation-filter pipeline of `src/app.py`
(Jerry Moran news search).

The pipeline (`search_jerry_moran_news`) issues seven fixed query variants
against a news provider, merges the results with first-wins link dedup,
applies two substring-based source filters, cleans titles, dedups by
cleaned title, tags Kansas outlets, and returns the kept articles together
with the raw (post-link-dedup, pre-filter) count.

Strings are modelled as Lean `String` (a list of `Char`).  Python's regex
classes `\w` and `\s` and `str.strip()` match Unicode categories; the
embedding models their ASCII fragment (`Char.isAlphanum`, underscore,
`Char.isWhitespace`), which covers the repository's data and every claim
below.  The provider (the `GNews` object) is a black box: it is modelled
as a function from the configured lookback window and a search term to
either an exception (`Except.error`) or a list of raw result records.
-/

namespace App

/-- A raw record returned by the provider for one query, as used by
`search_jerry_moran_news`: `entry['title']`, `entry['url']`,
`entry['publisher']['title']`, `entry['published date']`. -/
structure RawEntry where
  title : String
  url : String
  publisher : String
  published_date : String
deriving DecidableEq

/-- The `converted_entry` dict built in the accumulation loop:
`{'title': ..., 'link': ..., 'source': {'title': ...}, 'published': ...}`. -/
structure Entry where
  title : String
  link : String
  source : String
  published : String
deriving DecidableEq

/-- A dict appended to `filtered_results`. -/
structure Article where
  title : String
  media : String
  link : String
  is_kansas : Bool
  published : String
deriving DecidableEq

/-- The seven fixed search terms of `search_jerry_moran_news`. -/
def search_terms : List String :=
  ["Jerry Moran",
   "Senator Jerry Moran",
   "Senator Moran",
   "Sen. Moran",
   "Sen. Jerry Moran",
   "Sens. Moran",
   "Sens. Jerry Moran"]

/-- The hardcoded `kansas_outlets` list. -/
def kansas_outlets : List String :=
  ["Kansas Reflector",
   "The Topeka Capital-Journal",
   "The Wichita Eagle",
   "KCLY Radio",
   "KSN-TV",
   "KWCH",
   "Kansas City Star",
   "Lawrence Journal-World",
   "The Garden City Telegram",
   "KSNT 27 News",
   "The Hutchinson News",
   "Salina Journal",
   "Hays Daily News",
   "Hays Post",
   "Emporia Gazette",
   "JC Post",
   "WIBW"]

/-- Python's `pat in s` substring test on lists of characters:
`pat` occurs as a contiguous run in `l`. -/
def hasSubstr (l pat : List Char) : Bool :=
  pat.isPrefixOf l ||
    (match l with
     | [] => false
     | _ :: rest => hasSubstr rest pat)

/-- Python's `pat in s` on strings (substring containment). -/
def strContains (s pat : String) : Bool :=
  hasSubstr s.data pat.data

/-- The character class kept by `clean_text`'s regex
`[^\w\s\-\.\,\:\;\!\?\(\)\'\"]+` (ASCII fragment): word characters
(alphanumeric or underscore), whitespace, and the listed punctuation. -/
def keptChar (c : Char) : Bool :=
  c.isAlphanum || c = '_' || c.isWhitespace ||
    c = '-' || c = '.' || c = ',' || c = ':' || c = ';' || c = '!' ||
    c = '?' || c = '(' || c = ')' || c = Char.ofNat 39 || c = '"'

/-- Python's `str.strip()` on a character list: remove leading and
trailing whitespace. -/
def trimChars (l : List Char) : List Char :=
  ((l.dropWhile Char.isWhitespace).reverse.dropWhile Char.isWhitespace).reverse

/-- Function `clean_text` from `src/app.py`: delete every character not in
the kept class, then strip leading/trailing whitespace. -/
def clean_text (text : String) : String :=
  ⟨trimChars (text.data.filter keptChar)⟩

/-- Recursion worker for `removeAll`.  The `fuel` argument only makes the
recursion structural; as long as `fuel` bounds the list length from below
it never runs out, because each step consumes at least one character. -/
def removeAllAux (pat : List Char) : Nat → List Char → List Char
  | _, [] => []
  | 0, l => l
  | fuel + 1, c :: rest =>
    if !pat.isEmpty && pat.isPrefixOf (c :: rest) then
      removeAllAux pat fuel ((c :: rest).drop pat.length)
    else
      c :: removeAllAux pat fuel rest

/-- Python's `str.replace(pat, '')` with a non-empty pattern: remove every
non-overlapping occurrence of `pat`, scanning left to right.  (For an
empty pattern the scan finds no characters to remove, so the list is
returned unchanged; the pipeline only uses patterns starting `" - "`.) -/
def removeAll (pat l : List Char) : List Char :=
  removeAllAux pat l.length l

/-- The title cleaning the pipeline performs on a merged record:
`title.replace(f" - {media}", "")` followed by `clean_text`. -/
def cleanedTitle (title media : String) : String :=
  clean_text ⟨removeAll (" - " ++ media).data title.data⟩

/-- One iteration of the accumulation loop (step 2): skip the record if
its url was already seen, otherwise append the converted entry and
remember the url. -/
def addEntry (st : List Entry × List String) (e : RawEntry) :
    List Entry × List String :=
  if e.url ∈ st.2 then st
  else (st.1 ++ [⟨e.title, e.url, e.publisher, e.published_date⟩],
        st.2 ++ [e.url])

/-- The body of the per-variant loop (the `try`/`except` block): a raised
exception contributes nothing; a successful response has each of its
records merged through `addEntry`. -/
def searchVariant (st : List Entry × List String)
    (r : Except String (List RawEntry)) : List Entry × List String :=
  match r with
  | Except.error _ => st
  | Except.ok results => results.foldl addEntry st

/-- The accumulation phase over the per-variant provider responses. -/
def collectAll (responses : List (Except String (List RawEntry))) :
    List Entry × List String :=
  responses.foldl searchVariant ([], [])

/-- The article dict appended to `filtered_results` for an entry that
survives the filters and the title dedup. -/
def mkArticle (outlets : List String) (e : Entry) : Article :=
  { title := cleanedTitle e.title e.source
    media := clean_text e.source
    link := e.link
    is_kansas := outlets.any (fun o => strContains e.source o)
    published := e.published }

/-- One iteration of the processing loop (steps 3-6), parameterised by
the outlet allow-list: apply the two source filters, clean the title,
skip if the cleaned title was seen, otherwise keep the article. -/
def step (outlets : List String) (exclude_gov exclude_quiver : Bool)
    (st : List Article × List String) (e : Entry) :
    List Article × List String :=
  if exclude_gov && strContains e.source ".gov" then st
  else if exclude_quiver && strContains e.source "Quiver Quantitative" then st
  else if cleanedTitle e.title e.source ∈ st.2 then st
  else (st.1 ++ [mkArticle outlets e],
        st.2 ++ [cleanedTitle e.title e.source])

/-- The processing phase: fold the processing loop over the accumulated
entries, with the hardcoded `kansas_outlets` list. -/
def processEntries (exclude_gov exclude_quiver : Bool)
    (entries : List Entry) : List Article :=
  (entries.foldl (step kansas_outlets exclude_gov exclude_quiver) ([], [])).1

/-- The merged, link-deduplicated record list (`all_entries`) for a run. -/
def allEntries (provider : Nat → String → Except String (List RawEntry))
    (days : Nat) : List Entry :=
  (collectAll (search_terms.map (provider days))).1

/-- Function `search_jerry_moran_news(days, exclude_gov, exclude_quiver)`:
returns `(filtered_results, len(all_entries))`. -/
def search_jerry_moran_news
    (provider : Nat → String → Except String (List RawEntry))
    (days : Nat) (exclude_gov exclude_quiver : Bool) :
    List Article × Nat :=
  (processEntries exclude_gov exclude_quiver (allEntries provider days),
   (allEntries provider days).length)

/-! ### Specification-side definitions

The next definitions restate parts of the spec in Lean so that the code's
behaviour can be compared against them; they are not translations of the
source. -/

/-- The conversion applied to a raw provider record in the accumulation
loop, on its own. -/
def convertEntry (e : RawEntry) : Entry :=
  ⟨e.title, e.url, e.publisher, e.published_date⟩

/-- The raw records of the successful responses, in variant order and,
within a variant, provider order. -/
def flattenOk : List (Except String (List RawEntry)) → List RawEntry
  | [] => []
  | Except.error _ :: rs => flattenOk rs
  | Except.ok l :: rs => l ++ flattenOk rs

/-- First-occurrence-wins deduplication by link, as the spec describes
step 2: walk the merged stream, skip a record whose link was seen, keep
it otherwise. -/
def dedupByLink : List Entry → List String → List Entry
  | [], _ => []
  | e :: rest, seen =>
    if e.link ∈ seen then dedupByLink rest seen
    else e :: dedupByLink rest (e.link :: seen)

/-- The combined source-filter test of step 3: a record survives both the
gov filter and the named-source filter. -/
def passFilters (exclude_gov exclude_quiver : Bool) (e : Entry) : Bool :=
  !(exclude_gov && strContains e.source ".gov") &&
    !(exclude_quiver && strContains e.source "Quiver Quantitative")

/-- An article with its regional flag forgotten, used to state that the
outlet allow-list influences nothing but the flag. -/
def noFlag (a : Article) : Article :=
  { a with is_kansas := false }

/-- Modelled from the spec: the character class the spec's step 4 keeps —
alphanumeric, whitespace, or one of the listed punctuation marks.  Unlike
the code's regex class `\w`, it does not include the underscore. -/
def keptCharSpec (c : Char) : Bool :=
  c.isAlphanum || c.isWhitespace ||
    c = '-' || c = '.' || c = ',' || c = ':' || c = ';' || c = '!' ||
    c = '?' || c = '(' || c = ')' || c = Char.ofNat 39 || c = '"'

/-- Modelled from the spec: title cleaning as the spec's step 4 words it —
remove a trailing `" - {publisher}"` suffix if present (only that trailing
occurrence), delete every character outside the spec's kept class, then
trim surrounding whitespace. -/
def cleanTitleSpec (title media : String) : String :=
  let suffix := " - " ++ media
  let stripped : List Char :=
    if suffix.data.isSuffixOf title.data then
      title.data.take (title.data.length - suffix.data.length)
    else title.data
  ⟨trimChars (stripped.filter keptCharSpec)⟩

/-! ### Concrete providers used to instantiate the theorems -/

/-- A provider whose only successful variant returns one record whose
title embeds the publisher in the middle and contains an underscore. -/
def provC3 : Nat → String → Except String (List RawEntry) := fun _ t =>
  if t = "Jerry Moran" then
    Except.ok [⟨"A - KWCH_x - KWCH", "u1", "KWCH", "d1"⟩]
  else Except.error "boom"

/-- A provider returning one government record, one Quiver Quantitative
record and one Kansas record, used to instantiate the filter claims. -/
def provW : Nat → String → Except String (List RawEntry) := fun _ t =>
  if t = "Jerry Moran" then
    Except.ok
      [⟨"G title", "ug", "Example.gov", "dg"⟩,
       ⟨"Q title", "uq", "Quiver Quantitative", "dq"⟩,
       ⟨"N title", "un", "KWCH", "dn"⟩]
  else Except.error "boom"

/-- A provider for which every variant raises. -/
def provFail : Nat → String → Except String (List RawEntry) := fun _ _ =>
  Except.error "boom"

/-! ### Properties of the accumulation phase -/

/-- First-wins dedup only consults membership in the seen set, so seen
lists with the same members are interchangeable. -/
theorem dedupByLink_congr : ∀ (l : List Entry) (s₁ s₂ : List String),
    (∀ x, x ∈ s₁ ↔ x ∈ s₂) → dedupByLink l s₁ = dedupByLink l s₂ := by
  intro l
  induction l with
  | nil => intro s₁ s₂ _; rfl
  | cons e rest ih =>
    intro s₁ s₂ h
    by_cases hm : e.link ∈ s₁
    · rw [dedupByLink, if_pos hm, dedupByLink, if_pos ((h e.link).mp hm),
        ih s₁ s₂ h]
    · rw [dedupByLink, if_neg hm, dedupByLink,
        if_neg (fun hc => hm ((h e.link).mpr hc))]
      have h' : ∀ x, x ∈ e.link :: s₁ ↔ x ∈ e.link :: s₂ := by
        intro x; simp only [List.mem_cons]; rw [h x]
      rw [ih _ _ h']

/-- The accumulation loop over one response's record list computes exactly
the spec's first-wins dedup of that list, appended to the accumulator. -/
theorem foldl_addEntry_eq : ∀ (l : List RawEntry) (acc : List Entry)
    (seen : List String),
    l.foldl addEntry (acc, seen) =
      (acc ++ dedupByLink (l.map convertEntry) seen,
       seen ++ (dedupByLink (l.map convertEntry) seen).map Entry.link) := by
  intro l
  induction l with
  | nil => intro acc seen; simp [dedupByLink]
  | cons e rest ih =>
    intro acc seen
    have hl : (convertEntry e).link = e.url := rfl
    by_cases hm : e.url ∈ seen
    · rw [List.foldl_cons]
      have hstep : addEntry (acc, seen) e = (acc, seen) := by
        unfold addEntry; rw [if_pos hm]
      rw [hstep, ih, List.map_cons, dedupByLink, hl, if_pos hm]
    · rw [List.foldl_cons]
      have hstep : addEntry (acc, seen) e =
          (acc ++ [convertEntry e], seen ++ [e.url]) := by
        unfold addEntry; rw [if_neg hm]; rfl
      rw [hstep, ih]
      have hsets : dedupByLink (rest.map convertEntry) (seen ++ [e.url]) =
          dedupByLink (rest.map convertEntry) (e.url :: seen) := by
        apply dedupByLink_congr
        intro x; simp only [List.mem_append, List.mem_singleton,
          List.mem_cons]; tauto
      rw [hsets, List.map_cons, dedupByLink, hl, if_neg hm]
      simp only [hl, List.map_cons, List.append_assoc, List.singleton_append,
        Prod.mk.injEq]

/-- The response-level loop is the record-level loop over the flattened
successful responses. -/
theorem foldl_searchVariant_eq : ∀ (rs : List (Except String (List RawEntry)))
    (st : List Entry × List String),
    rs.foldl searchVariant st = (flattenOk rs).foldl addEntry st := by
  intro rs
  induction rs with
  | nil => intro st; rfl
  | cons r rest ih =>
    intro st
    cases r with
    | error msg => rw [List.foldl_cons, flattenOk]; exact ih st
    | ok l =>
      rw [List.foldl_cons, flattenOk, List.foldl_append]
      exact ih _

/-- The accumulation phase, characterised: the merged entries are the
first-wins link dedup of the flattened successful responses, and the seen
set is exactly their links. -/
theorem collectAll_char (rs : List (Except String (List RawEntry))) :
    collectAll rs =
      (dedupByLink ((flattenOk rs).map convertEntry) [],
       (dedupByLink ((flattenOk rs).map convertEntry) []).map Entry.link) := by
  unfold collectAll
  rw [foldl_searchVariant_eq, foldl_addEntry_eq]
  simp

/-- The deduplicated stream has no repeated link, and none of its links is
in the initial seen set. -/
theorem dedupByLink_links_nodup : ∀ (l : List Entry) (seen : List String),
    ((dedupByLink l seen).map Entry.link).Nodup ∧
      ∀ x ∈ (dedupByLink l seen).map Entry.link, x ∉ seen := by
  intro l
  induction l with
  | nil => intro seen; simp [dedupByLink]
  | cons e rest ih =>
    intro seen
    by_cases hm : e.link ∈ seen
    · rw [dedupByLink, if_pos hm]; exact ih seen
    · rw [dedupByLink, if_neg hm, List.map_cons]
      obtain ⟨hnd, hns⟩ := ih (e.link :: seen)
      refine ⟨List.nodup_cons.mpr ⟨fun hc => ?_, hnd⟩, ?_⟩
      · exact (hns e.link hc) (List.mem_cons_self e.link seen)
      · intro x hx
        rcases List.mem_cons.mp hx with h | h
        · rw [h]; exact hm
        · exact fun hc => (hns x h) (List.mem_cons_of_mem _ hc)

/-- Membership of a link in the deduplicated stream. -/
theorem dedupByLink_mem_link : ∀ (l : List Entry) (seen : List String)
    (x : String),
    x ∈ (dedupByLink l seen).map Entry.link ↔
      x ∈ l.map Entry.link ∧ x ∉ seen := by
  intro l
  induction l with
  | nil => intro seen x; simp [dedupByLink]
  | cons e rest ih =>
    intro seen x
    by_cases hm : e.link ∈ seen
    · rw [dedupByLink, if_pos hm, ih, List.map_cons]
      constructor
      · rintro ⟨h1, h2⟩; exact ⟨List.mem_cons_of_mem _ h1, h2⟩
      · rintro ⟨h1, h2⟩
        rcases List.mem_cons.mp h1 with h | h
        · exact absurd (h ▸ hm) h2
        · exact ⟨h, h2⟩
    · rw [dedupByLink, if_neg hm, List.map_cons, List.map_cons]
      constructor
      · intro hx
        rcases List.mem_cons.mp hx with h | h
        · exact ⟨List.mem_cons.mpr (Or.inl h), h ▸ hm⟩
        · obtain ⟨h1, h2⟩ := (ih (e.link :: seen) x).mp h
          exact ⟨List.mem_cons.mpr (Or.inr h1),
            fun hc => h2 (List.mem_cons_of_mem _ hc)⟩
      · rintro ⟨h1, h2⟩
        rcases List.mem_cons.mp h1 with h | h
        · exact List.mem_cons.mpr (Or.inl h)
        · by_cases hx : x = e.link
          · exact List.mem_cons.mpr (Or.inl hx)
          · refine List.mem_cons.mpr (Or.inr ((ih _ x).mpr ⟨h, ?_⟩))
            intro hc
            rcases List.mem_cons.mp hc with h' | h'
            · exact hx h'
            · exact h2 h'

/-- The merged entry list of a run has pairwise distinct links. -/
theorem allEntries_links_nodup
    (p : Nat → String → Except String (List RawEntry)) (d : Nat) :
    ((allEntries p d).map Entry.link).Nodup := by
  unfold allEntries
  rw [collectAll_char]
  exact (dedupByLink_links_nodup _ []).1

/-- The merged entry list is exactly the first-wins dedup of the flattened
successful responses. -/
theorem allEntries_eq_dedup
    (p : Nat → String → Except String (List RawEntry)) (d : Nat) :
    allEntries p d =
      dedupByLink ((flattenOk (search_terms.map (p d))).map convertEntry) [] := by
  unfold allEntries
  rw [collectAll_char]

/-- The length of the merged entry list is the number of distinct links
among the flattened successful responses. -/
theorem allEntries_length
    (p : Nat → String → Except String (List RawEntry)) (d : Nat) :
    (allEntries p d).length =
      ((flattenOk (search_terms.map (p d))).map RawEntry.url).toFinset.card := by
  rw [allEntries_eq_dedup]
  set flat := flattenOk (search_terms.map (p d)) with hflat
  have h1 : (dedupByLink (flat.map convertEntry) []).length =
      ((dedupByLink (flat.map convertEntry) []).map Entry.link).length := by
    rw [List.length_map]
  rw [h1, ← List.toFinset_card_of_nodup (dedupByLink_links_nodup _ []).1]
  congr 1
  apply Finset.ext
  intro x
  rw [List.mem_toFinset, List.mem_toFinset, dedupByLink_mem_link,
    List.map_map]
  have h2 : (Entry.link ∘ convertEntry) = RawEntry.url := rfl
  rw [h2]
  simp

/-! ### Properties of the processing loop -/

/-- The processing-loop body, restated through the combined filter test. -/
theorem step_eq (o : List String) (g q : Bool)
    (st : List Article × List String) (e : Entry) :
    step o g q st e =
      if passFilters g q e then
        (if cleanedTitle e.title e.source ∈ st.2 then st
         else (st.1 ++ [mkArticle o e],
               st.2 ++ [cleanedTitle e.title e.source]))
      else st := by
  unfold step passFilters
  by_cases h1 : (g && strContains e.source ".gov") = true
  · simp [h1]
  · by_cases h2 : (q && strContains e.source "Quiver Quantitative") = true
    · simp [h1, h2]
    · simp [h1, h2]

/-- The seen-titles set only grows along the processing loop. -/
theorem foldl_step_seen_mono (o : List String) (g q : Bool) :
    ∀ (l : List Entry) (st : List Article × List String) (x : String),
    x ∈ st.2 → x ∈ (l.foldl (step o g q) st).2 := by
  intro l
  induction l with
  | nil => intro st x hx; exact hx
  | cons e rest ih =>
    intro st x hx
    rw [List.foldl_cons]
    apply ih
    rw [step_eq]
    by_cases hp : passFilters g q e = true
    · rw [if_pos hp]
      by_cases hs : cleanedTitle e.title e.source ∈ st.2
      · rw [if_pos hs]; exact hx
      · rw [if_neg hs]; exact List.mem_append_left _ hx
    · rw [if_neg hp]; exact hx

/-- Decomposition of the processing loop: it appends to the initial
accumulator a block of articles whose links form a subsequence of the
processed entries' links, each article built by `mkArticle` from an entry
that passed both source filters, and at most one article per entry. -/
theorem foldl_step_decomp (o : List String) (g q : Bool) :
    ∀ (l : List Entry) (st : List Article × List String),
    ∃ ext : List Article,
      (l.foldl (step o g q) st).1 = st.1 ++ ext ∧
      List.Sublist (ext.map Article.link) (l.map Entry.link) ∧
      (∀ a ∈ ext, ∃ e ∈ l, a = mkArticle o e ∧ passFilters g q e = true) ∧
      ext.length ≤ l.length := by
  intro l
  induction l with
  | nil =>
    intro st
    exact ⟨[], by simp, by simp, by simp, by simp⟩
  | cons e rest ih =>
    intro st
    rw [List.foldl_cons, step_eq]
    by_cases hp : passFilters g q e = true
    · rw [if_pos hp]
      by_cases hs : cleanedTitle e.title e.source ∈ st.2
      · rw [if_pos hs]
        obtain ⟨ext, h1, h2, h3, h4⟩ := ih st
        refine ⟨ext, h1, List.Sublist.cons e.link h2, ?_, ?_⟩
        · intro a ha
          obtain ⟨e', he', hmk, hpf⟩ := h3 a ha
          exact ⟨e', List.mem_cons_of_mem _ he', hmk, hpf⟩
        · simp only [List.length_cons]; omega
      · rw [if_neg hs]
        obtain ⟨ext, h1, h2, h3, h4⟩ :=
          ih (st.1 ++ [mkArticle o e], st.2 ++ [cleanedTitle e.title e.source])
        refine ⟨mkArticle o e :: ext, ?_, ?_, ?_, ?_⟩
        · rw [h1]; simp [List.append_assoc]
        · rw [List.map_cons, List.map_cons]
          exact List.Sublist.cons₂ e.link h2
        · intro a ha
          rcases List.mem_cons.mp ha with h | h
          · exact ⟨e, List.mem_cons_self e rest, h, hp⟩
          · obtain ⟨e', he', hmk, hpf⟩ := h3 a h
            exact ⟨e', List.mem_cons_of_mem _ he', hmk, hpf⟩
        · simp only [List.length_cons]; omega
    · rw [if_neg hp]
      obtain ⟨ext, h1, h2, h3, h4⟩ := ih st
      refine ⟨ext, h1, List.Sublist.cons e.link h2, ?_, ?_⟩
      · intro a ha
        obtain ⟨e', he', hmk, hpf⟩ := h3 a ha
        exact ⟨e', List.mem_cons_of_mem _ he', hmk, hpf⟩
      · simp only [List.length_cons]; omega

/-- Along the processing loop, the kept articles' titles are exactly the
seen-titles set, and the seen-titles set stays duplicate-free. -/
theorem foldl_step_titles (o : List String) (g q : Bool) :
    ∀ (l : List Entry) (st : List Article × List String),
    st.1.map Article.title = st.2 → st.2.Nodup →
    (l.foldl (step o g q) st).1.map Article.title =
        (l.foldl (step o g q) st).2 ∧
      (l.foldl (step o g q) st).2.Nodup := by
  intro l
  induction l with
  | nil => intro st h1 h2; exact ⟨h1, h2⟩
  | cons e rest ih =>
    intro st h1 h2
    rw [List.foldl_cons, step_eq]
    by_cases hp : passFilters g q e = true
    · rw [if_pos hp]
      by_cases hs : cleanedTitle e.title e.source ∈ st.2
      · rw [if_pos hs]; exact ih st h1 h2
      · rw [if_neg hs]
        apply ih
        · rw [List.map_append, h1]; rfl
        · rw [List.nodup_append]
          refine ⟨h2, List.nodup_singleton _, ?_⟩
          intro x hx hx'
          rw [List.mem_singleton] at hx'
          exact hs (hx' ▸ hx)
    · rw [if_neg hp]; exact ih st h1 h2

/-- An entry that passes both source filters leaves its cleaned title in
the final seen-titles set, whether it was kept or was a title duplicate. -/
theorem foldl_step_eligible (o : List String) (g q : Bool) :
    ∀ (l : List Entry) (st : List Article × List String) (e : Entry),
    e ∈ l → passFilters g q e = true →
    cleanedTitle e.title e.source ∈ (l.foldl (step o g q) st).2 := by
  intro l
  induction l with
  | nil => intro st e he; exact absurd he (List.not_mem_nil e)
  | cons e0 rest ih =>
    intro st e he hp
    rcases List.mem_cons.mp he with h | h
    · subst h
      rw [List.foldl_cons]
      apply foldl_step_seen_mono
      rw [step_eq, if_pos hp]
      by_cases hs : cleanedTitle e.title e.source ∈ st.2
      · rw [if_pos hs]; exact hs
      · rw [if_neg hs]
        exact List.mem_append_right _ (List.mem_singleton.mpr rfl)
    · rw [List.foldl_cons]
      exact ih _ e h hp

/-- The outlet allow-list affects nothing but the regional flag: two runs
of the processing loop with different allow-lists keep the same articles
in the same order, up to that flag, and compute identical seen-title
sets. -/
theorem foldl_step_noFlag (g q : Bool) :
    ∀ (l : List Entry) (o₁ o₂ : List String)
      (st₁ st₂ : List Article × List String),
    st₁.1.map noFlag = st₂.1.map noFlag → st₁.2 = st₂.2 →
    (l.foldl (step o₁ g q) st₁).1.map noFlag =
        (l.foldl (step o₂ g q) st₂).1.map noFlag ∧
      (l.foldl (step o₁ g q) st₁).2 = (l.foldl (step o₂ g q) st₂).2 := by
  intro l
  induction l with
  | nil => intro o₁ o₂ st₁ st₂ h1 h2; exact ⟨h1, h2⟩
  | cons e rest ih =>
    intro o₁ o₂ st₁ st₂ h1 h2
    rw [List.foldl_cons, List.foldl_cons, step_eq, step_eq]
    by_cases hp : passFilters g q e = true
    · rw [if_pos hp, if_pos hp]
      by_cases hs : cleanedTitle e.title e.source ∈ st₁.2
      · rw [if_pos hs, if_pos (h2 ▸ hs)]
        exact ih o₁ o₂ st₁ st₂ h1 h2
      · rw [if_neg hs, if_neg (h2 ▸ hs)]
        apply ih
        · rw [List.map_append, List.map_append, h1]
          have : noFlag (mkArticle o₁ e) = noFlag (mkArticle o₂ e) := rfl
          simp [this]
        · rw [h2]
    · rw [if_neg hp, if_neg hp]
      exact ih o₁ o₂ st₁ st₂ h1 h2

/-! ### Properties of text cleaning -/

/-- Dropping a satisfying run twice is the same as dropping it once. -/
theorem dropWhile_self {α : Type} (p : α → Bool) (l : List α) :
    (l.dropWhile p).dropWhile p = l.dropWhile p := by
  induction l with
  | nil => rfl
  | cons a l ih =>
    by_cases h : p a = true
    · rw [List.dropWhile_cons, if_pos h, ih]
    · rw [List.dropWhile_cons, if_neg h, List.dropWhile_cons, if_neg h]

/-- The head surviving `dropWhile` falsifies the predicate. -/
theorem dropWhile_head_false {α : Type} (p : α → Bool) :
    ∀ (l : List α) (c : α) (rest : List α),
    l.dropWhile p = c :: rest → p c = false := by
  intro l
  induction l with
  | nil => intro c rest h; exact absurd h (by simp)
  | cons a l ih =>
    intro c rest h
    by_cases ha : p a = true
    · rw [List.dropWhile_cons, if_pos ha] at h
      exact ih c rest h
    · rw [List.dropWhile_cons, if_neg ha] at h
      cases List.cons.inj h with
      | intro h1 h2 => rw [← h1]; exact Bool.eq_false_iff.mpr ha

/-- Trimming yields an initial segment of the left-trimmed list. -/
theorem trimChars_append (l : List Char) :
    ∃ t, l.dropWhile Char.isWhitespace = trimChars l ++ t := by
  obtain ⟨s, hs⟩ :=
    List.dropWhile_suffix (l := (l.dropWhile Char.isWhitespace).reverse)
      Char.isWhitespace
  refine ⟨s.reverse, ?_⟩
  unfold trimChars
  rw [← List.reverse_append, hs, List.reverse_reverse]

/-- Trimming surrounding whitespace is idempotent. -/
theorem trimChars_idem (l : List Char) :
    trimChars (trimChars l) = trimChars l := by
  have hA : (trimChars l).dropWhile Char.isWhitespace = trimChars l := by
    cases hy : trimChars l with
    | nil => rfl
    | cons c rest =>
      obtain ⟨t, ht⟩ := trimChars_append l
      have hc : Char.isWhitespace c = false := by
        apply dropWhile_head_false Char.isWhitespace l c (rest ++ t)
        rw [ht, hy]; rfl
      rw [List.dropWhile_cons, if_neg (by simp [hc])]
  have h1 : trimChars (trimChars l) =
      (((trimChars l).dropWhile Char.isWhitespace).reverse.dropWhile
        Char.isWhitespace).reverse := rfl
  rw [h1, hA]
  have h2 : (trimChars l).reverse =
      (l.dropWhile Char.isWhitespace).reverse.dropWhile Char.isWhitespace := by
    unfold trimChars
    rw [List.reverse_reverse]
  rw [h2, dropWhile_self]
  rfl

/-- Every character of the trimmed list is a character of the list. -/
theorem mem_trimChars (l : List Char) (a : Char) (h : a ∈ trimChars l) :
    a ∈ l := by
  unfold trimChars at h
  rw [List.mem_reverse] at h
  have h1 := ((List.dropWhile_suffix Char.isWhitespace).sublist.subset) h
  rw [List.mem_reverse] at h1
  exact ((List.dropWhile_suffix Char.isWhitespace).sublist.subset) h1

/-! ### Properties of the response stream -/

/-- Responses that raised contribute nothing to the flattened stream. -/
theorem flattenOk_filter (rs : List (Except String (List RawEntry))) :
    flattenOk (rs.filter Except.isOk) = flattenOk rs := by
  induction rs with
  | nil => rfl
  | cons r rest ih =>
    cases r with
    | error msg =>
      have h1 : (Except.error msg : Except String (List RawEntry)).isOk
          = false := rfl
      rw [List.filter_cons, h1, if_neg (by simp)]
      rw [show flattenOk (Except.error msg :: rest) = flattenOk rest from rfl]
      exact ih
    | ok l =>
      have h1 : (Except.ok l : Except String (List RawEntry)).isOk
          = true := rfl
      rw [List.filter_cons, h1, if_pos rfl]
      rw [show flattenOk (Except.ok l :: List.filter Except.isOk rest)
            = l ++ flattenOk (List.filter Except.isOk rest) from rfl,
          show flattenOk (Except.ok l :: rest) = l ++ flattenOk rest from rfl,
          ih]

/-- If every response raised, the flattened stream is empty. -/
theorem flattenOk_all_error (rs : List (Except String (List RawEntry)))
    (h : ∀ r ∈ rs, r.isOk = false) : flattenOk rs = [] := by
  induction rs with
  | nil => rfl
  | cons r rest ih =>
    cases r with
    | error msg =>
      rw [flattenOk]
      exact ih (fun r hr => h r (List.mem_cons_of_mem _ hr))
    | ok l =>
      have ht := h (Except.ok l) (List.mem_cons_self _ _)
      have h1 : (Except.ok l : Except String (List RawEntry)).isOk
          = true := rfl
      rw [h1] at ht
      exact absurd ht (by simp)

/-! ### Corollaries specialised to the full pipeline -/

/-- The processing phase, decomposed: article links are a subsequence of
the merged entries' links, each article originates from an entry that
passed both source filters, and at most one article is kept per entry. -/
theorem processEntries_decomp (g q : Bool) (entries : List Entry) :
    List.Sublist ((processEntries g q entries).map Article.link)
        (entries.map Entry.link) ∧
      (∀ a ∈ processEntries g q entries,
        ∃ e ∈ entries,
          a = mkArticle kansas_outlets e ∧ passFilters g q e = true) ∧
      (processEntries g q entries).length ≤ entries.length := by
  obtain ⟨ext, h1, h2, h3, h4⟩ :=
    foldl_step_decomp kansas_outlets g q entries ([], [])
  have hres : processEntries g q entries = ext := by
    unfold processEntries
    rw [h1]
    rfl
  rw [hres]
  exact ⟨h2, h3, h4⟩

/-- The kept articles' titles equal the final seen-titles set and are
duplicate-free. -/
theorem processEntries_titles (g q : Bool) (entries : List Entry) :
    (processEntries g q entries).map Article.title =
        (entries.foldl (step kansas_outlets g q) ([], [])).2 ∧
      ((processEntries g q entries).map Article.title).Nodup := by
  obtain ⟨ht, hn⟩ :=
    foldl_step_titles kansas_outlets g q entries ([], []) rfl List.nodup_nil
  refine ⟨ht, ?_⟩
  show ((entries.foldl (step kansas_outlets g q) ([], [])).1.map
    Article.title).Nodup
  rw [ht]
  exact hn

/-! ### The claims -/

/-- C1: for every run, no two articles in the returned result sequence
share the same link, and no two share the same cleaned
(publisher-suffix-stripped, character-stripped) title under
case-sensitive exact comparison. -/
theorem claim_C1_no_duplicate_links_or_titles
    (p : Nat → String → Except String (List RawEntry)) (d : Nat)
    (g q : Bool) :
    ((search_jerry_moran_news p d g q).1.map Article.link).Nodup ∧
      ((search_jerry_moran_news p d g q).1.map Article.title).Nodup := by
  constructor
  · obtain ⟨hsub, _, _⟩ := processEntries_decomp g q (allEntries p d)
    exact (allEntries_links_nodup p d).sublist hsub
  · exact (processEntries_titles g q (allEntries p d)).2

/-- C5: for every run, link-level dedup keeps the first occurrence of each
link in variant order then provider order (the merged entries are exactly
the spec's first-wins dedup of the flattened successful responses), and
the final result sequence preserves that first-seen order (its links form
a subsequence of the merged entries' links). -/
theorem claim_C5_first_seen_order
    (p : Nat → String → Except String (List RawEntry)) (d : Nat)
    (g q : Bool) :
    allEntries p d =
        dedupByLink ((flattenOk (search_terms.map (p d))).map convertEntry)
          [] ∧
      List.Sublist ((search_jerry_moran_news p d g q).1.map Article.link)
        ((allEntries p d).map Entry.link) := by
  refine ⟨allEntries_eq_dedup p d, ?_⟩
  exact (processEntries_decomp g q (allEntries p d)).1

/-- C6: for every run, the returned raw total count equals the number of
records accumulated after link-level dedup and before filtering — the
number of distinct links across all successful variants. -/
theorem claim_C6_raw_count
    (p : Nat → String → Except String (List RawEntry)) (d : Nat)
    (g q : Bool) :
    (search_jerry_moran_news p d g q).2 = (allEntries p d).length ∧
      (search_jerry_moran_news p d g q).2 =
        ((flattenOk (search_terms.map (p d))).map
          RawEntry.url).toFinset.card := by
  exact ⟨rfl, allEntries_length p d⟩

/-- C8: title cleaning is idempotent — applying `clean_text` to an
already-cleaned string yields the same string. -/
theorem claim_C8_clean_text_idempotent (s : String) :
    clean_text (clean_text s) = clean_text s := by
  have hdata : (clean_text s).data = trimChars (s.data.filter keptChar) := rfl
  show (⟨trimChars ((clean_text s).data.filter keptChar)⟩ : String)
    = clean_text s
  rw [hdata]
  have hfix : (trimChars (s.data.filter keptChar)).filter keptChar
      = trimChars (s.data.filter keptChar) := by
    apply List.filter_eq_self.mpr
    intro a ha
    have h1 : a ∈ s.data.filter keptChar := mem_trimChars _ a ha
    exact (List.mem_filter.mp h1).2
  rw [hfix, trimChars_idem]
  rfl

/-- C9: for all inputs — any days value, any filter-flag combination, any
provider responses — the number of returned articles is at most the
returned raw total count. -/
theorem claim_C9_result_le_raw_count
    (p : Nat → String → Except String (List RawEntry)) (d : Nat)
    (g q : Bool) :
    (search_jerry_moran_news p d g q).1.length ≤
      (search_jerry_moran_news p d g q).2 := by
  exact (processEntries_decomp g q (allEntries p d)).2.2

/-- With the gov filter enabled, a record that survives has no ".gov" in
its raw publisher name. -/
theorem passFilters_gov {q : Bool} {e : Entry}
    (h : passFilters true q e = true) :
    strContains e.source ".gov" = false := by
  unfold passFilters at h
  cases hc : strContains e.source ".gov" with
  | false => rfl
  | true => rw [hc] at h; simp at h

/-- With the named-source filter enabled, a record that survives has no
"Quiver Quantitative" in its raw publisher name. -/
theorem passFilters_quiver {g : Bool} {e : Entry}
    (h : passFilters g true e = true) :
    strContains e.source "Quiver Quantitative" = false := by
  unfold passFilters at h
  cases hc : strContains e.source "Quiver Quantitative" with
  | false => rfl
  | true => rw [hc] at h; simp at h

/-- With the gov filter disabled, a record passes both filters as soon as
the named-source filter does not hit it. -/
theorem passFilters_of_not_quiver {q : Bool} {e : Entry}
    (h : ¬(q = true ∧ strContains e.source "Quiver Quantitative" = true)) :
    passFilters false q e = true := by
  unfold passFilters
  cases q with
  | false => simp
  | true =>
    cases hc : strContains e.source "Quiver Quantitative" with
    | false => simp [hc]
    | true => exact absurd ⟨rfl, hc⟩ h

/-- With the named-source filter disabled, a record passes both filters as
soon as the gov filter does not hit it. -/
theorem passFilters_of_not_gov {g : Bool} {e : Entry}
    (h : ¬(g = true ∧ strContains e.source ".gov" = true)) :
    passFilters g false e = true := by
  unfold passFilters
  cases g with
  | false => simp
  | true =>
    cases hc : strContains e.source ".gov" with
    | false => simp [hc]
    | true => exact absurd ⟨rfl, hc⟩ h

/-- An entry of the merged list that passes both filters contributes its
cleaned title to some returned article (itself, or the earlier article
that made it a title duplicate). -/
theorem eligible_title_kept (g q : Bool) (entries : List Entry) (e : Entry)
    (he : e ∈ entries) (hpf : passFilters g q e = true) :
    ∃ a ∈ processEntries g q entries,
      a.title = cleanedTitle e.title e.source := by
  have hmem := foldl_step_eligible kansas_outlets g q entries ([], []) e he hpf
  rw [← (processEntries_titles g q entries).1] at hmem
  obtain ⟨a, ha, heq⟩ := List.mem_map.mp hmem
  exact ⟨a, ha, heq⟩

/-- C2: for every run, when `exclude_gov` is enabled no returned article's
raw publisher name contains ".gov", and when it is disabled no article is
dropped for containing ".gov" (it stays eligible, removed only by the
other filter or by dedup); likewise for `exclude_quiver` and the
substring "Quiver Quantitative". -/
theorem claim_C2_source_filters
    (p : Nat → String → Except String (List RawEntry)) (d : Nat)
    (g q : Bool) :
    (∀ a ∈ (search_jerry_moran_news p d true q).1,
       ∃ e ∈ allEntries p d, a.link = e.link ∧
         strContains e.source ".gov" = false) ∧
    (∀ e ∈ allEntries p d,
       ¬(q = true ∧ strContains e.source "Quiver Quantitative" = true) →
       ∃ a ∈ (search_jerry_moran_news p d false q).1,
         a.title = cleanedTitle e.title e.source) ∧
    (∀ a ∈ (search_jerry_moran_news p d g true).1,
       ∃ e ∈ allEntries p d, a.link = e.link ∧
         strContains e.source "Quiver Quantitative" = false) ∧
    (∀ e ∈ allEntries p d,
       ¬(g = true ∧ strContains e.source ".gov" = true) →
       ∃ a ∈ (search_jerry_moran_news p d g false).1,
         a.title = cleanedTitle e.title e.source) := by
  refine ⟨?_, ?_, ?_, ?_⟩
  · intro a ha
    obtain ⟨e, he, hmk, hpf⟩ :=
      (processEntries_decomp true q (allEntries p d)).2.1 a ha
    exact ⟨e, he, by rw [hmk]; rfl, passFilters_gov hpf⟩
  · intro e he hq
    exact eligible_title_kept false q (allEntries p d) e he
      (passFilters_of_not_quiver hq)
  · intro a ha
    obtain ⟨e, he, hmk, hpf⟩ :=
      (processEntries_decomp g true (allEntries p d)).2.1 a ha
    exact ⟨e, he, by rw [hmk]; rfl, passFilters_quiver hpf⟩
  · intro e he hg
    exact eligible_title_kept g false (allEntries p d) e he
      (passFilters_of_not_gov hg)

/-- Witness for C2, at the concrete provider `provW`: the Kansas record is
returned with both filters on and matches a merged record free of both
banned substrings; the gov record stays in when the gov filter is off;
the Quiver record stays in when the named-source filter is off. -/
theorem claim_C2_source_filters_witness :
    (mkArticle kansas_outlets ⟨"N title", "un", "KWCH", "dn"⟩ ∈
        (search_jerry_moran_news provW 3 true true).1 ∧
      ∃ e ∈ allEntries provW 3,
        (mkArticle kansas_outlets ⟨"N title", "un", "KWCH", "dn"⟩).link
            = e.link ∧
          strContains e.source ".gov" = false) ∧
    ((⟨"G title", "ug", "Example.gov", "dg"⟩ : Entry) ∈ allEntries provW 3 ∧
      ∃ a ∈ (search_jerry_moran_news provW 3 false true).1,
        a.title = cleanedTitle "G title" "Example.gov") ∧
    (∃ e ∈ allEntries provW 3,
       (mkArticle kansas_outlets ⟨"N title", "un", "KWCH", "dn"⟩).link
           = e.link ∧
         strContains e.source "Quiver Quantitative" = false) ∧
    (∃ a ∈ (search_jerry_moran_news provW 3 true false).1,
       a.title = cleanedTitle "Q title" "Quiver Quantitative") :=
  ⟨⟨by decide,
    (claim_C2_source_filters provW 3 true true).1 _ (by decide)⟩,
   ⟨by decide,
    (claim_C2_source_filters provW 3 true true).2.1
      ⟨"G title", "ug", "Example.gov", "dg"⟩ (by decide) (by decide)⟩,
   (claim_C2_source_filters provW 3 true true).2.2.1 _ (by decide),
   (claim_C2_source_filters provW 3 true true).2.2.2
     ⟨"Q title", "uq", "Quiver Quantitative", "dq"⟩ (by decide) (by decide)⟩

/-- C3, counterexample: the claim says the cleaned title removes only a
trailing " - {publisher}" suffix and deletes underscores (they are not
alphanumeric).  On the merged record with title "A - KWCH_x - KWCH" and
publisher "KWCH", the code removes the embedded occurrence as well and
keeps the underscore, returning "A_x", while the spec's formula yields
"A - KWCHx". -/
theorem claim_C3_counterexample :
    (∃ a ∈ (search_jerry_moran_news provC3 3 true true).1,
       ∃ e ∈ allEntries provC3 3,
         a.link = e.link ∧ a.title ≠ cleanTitleSpec e.title e.source) ∧
    cleanTitleSpec "A - KWCH_x - KWCH" "KWCH" = "A - KWCHx" ∧
    cleanedTitle "A - KWCH_x - KWCH" "KWCH" = "A_x" := by
  refine ⟨?_, by decide, by decide⟩
  decide

/-- C3, amended: for every returned article, its title is the merged
record's title with every occurrence of " - {publisher name}" removed
(left to right, non-overlapping), every character that is not a word
character (alphanumeric or underscore), whitespace, or listed punctuation
deleted, and surrounding whitespace trimmed; its publisher name gets the
same character deletion and trim without the suffix removal. -/
theorem claim_C3_title_cleaning
    (p : Nat → String → Except String (List RawEntry)) (d : Nat)
    (g q : Bool) :
    ∀ a ∈ (search_jerry_moran_news p d g q).1,
      ∃ e ∈ allEntries p d,
        a.title = cleanedTitle e.title e.source ∧
        a.media = clean_text e.source ∧ a.link = e.link := by
  intro a ha
  obtain ⟨e, he, hmk, _⟩ :=
    (processEntries_decomp g q (allEntries p d)).2.1 a ha
  exact ⟨e, he, by rw [hmk]; rfl, by rw [hmk]; rfl, by rw [hmk]; rfl⟩

/-- Witness for the amended C3, at the concrete provider `provC3`. -/
theorem claim_C3_title_cleaning_witness :
    mkArticle kansas_outlets ⟨"A - KWCH_x - KWCH", "u1", "KWCH", "d1"⟩ ∈
        (search_jerry_moran_news provC3 3 true true).1 ∧
      ∃ e ∈ allEntries provC3 3,
        (mkArticle kansas_outlets
            ⟨"A - KWCH_x - KWCH", "u1", "KWCH", "d1"⟩).title
            = cleanedTitle e.title e.source ∧
          (mkArticle kansas_outlets
              ⟨"A - KWCH_x - KWCH", "u1", "KWCH", "d1"⟩).media
              = clean_text e.source ∧
          (mkArticle kansas_outlets
              ⟨"A - KWCH_x - KWCH", "u1", "KWCH", "d1"⟩).link = e.link :=
  ⟨by decide, claim_C3_title_cleaning provC3 3 true true _ (by decide)⟩

/-- C4: a run's result is built only from the successful variants (raising
variants contribute nothing to the merged entries nor to the raw count),
and if all seven variants fail the run returns an empty result and a raw
count of zero. -/
theorem claim_C4_error_isolation
    (p : Nat → String → Except String (List RawEntry)) (d : Nat)
    (g q : Bool) :
    search_jerry_moran_news p d g q =
      (processEntries g q
         ((collectAll ((search_terms.map (p d)).filter Except.isOk)).1),
       ((collectAll
          ((search_terms.map (p d)).filter Except.isOk)).1).length) ∧
    ((∀ t ∈ search_terms, (p d t).isOk = false) →
      search_jerry_moran_news p d g q = ([], 0)) := by
  have hok : (collectAll ((search_terms.map (p d)).filter Except.isOk)).1
      = allEntries p d := by
    unfold allEntries
    rw [collectAll_char, collectAll_char, flattenOk_filter]
  constructor
  · rw [hok]
    rfl
  · intro hfail
    have hmap : ∀ r ∈ search_terms.map (p d), r.isOk = false := by
      intro r hr
      obtain ⟨t, ht, rfl⟩ := List.mem_map.mp hr
      exact hfail t ht
    have hempty : allEntries p d = [] := by
      rw [allEntries_eq_dedup, flattenOk_all_error _ hmap]
      rfl
    show (processEntries g q (allEntries p d), (allEntries p d).length)
      = ([], 0)
    rw [hempty]
    rfl

/-- Witness for C4: a provider for which every variant raises yields the
empty result and a zero raw count. -/
theorem claim_C4_error_isolation_witness :
    (∀ t ∈ search_terms, (provFail 3 t).isOk = false) ∧
      search_jerry_moran_news provFail 3 true true = ([], 0) :=
  ⟨by decide,
   (claim_C4_error_isolation provFail 3 true true).2 (by decide)⟩

/-- C7: every returned article's regional flag is true iff some entry of
the fixed outlet allow-list is a substring of the raw publisher name of
its merged record, and the allow-list never influences which articles are
kept — two runs of the processing loop with arbitrary allow-lists keep
the same articles up to the flag. -/
theorem claim_C7_regional_flag
    (p : Nat → String → Except String (List RawEntry)) (d : Nat)
    (g q : Bool) :
    (∀ a ∈ (search_jerry_moran_news p d g q).1,
       ∃ e ∈ allEntries p d, a.link = e.link ∧
         (a.is_kansas = true ↔
           ∃ o ∈ kansas_outlets, strContains e.source o = true)) ∧
    (∀ (o₁ o₂ : List String) (entries : List Entry),
       ((entries.foldl (step o₁ g q) ([], [])).1).map noFlag =
         ((entries.foldl (step o₂ g q) ([], [])).1).map noFlag) := by
  constructor
  · intro a ha
    obtain ⟨e, he, hmk, _⟩ :=
      (processEntries_decomp g q (allEntries p d)).2.1 a ha
    refine ⟨e, he, by rw [hmk]; rfl, ?_⟩
    rw [hmk]
    show kansas_outlets.any (fun o => strContains e.source o) = true ↔ _
    rw [List.any_eq_true]
  · intro o₁ o₂ entries
    exact (foldl_step_noFlag g q entries o₁ o₂ ([], []) ([], []) rfl rfl).1

/-- Witness for C7, at the concrete provider `provW`. -/
theorem claim_C7_regional_flag_witness :
    mkArticle kansas_outlets ⟨"N title", "un", "KWCH", "dn"⟩ ∈
        (search_jerry_moran_news provW 3 true true).1 ∧
      ∃ e ∈ allEntries provW 3,
        (mkArticle kansas_outlets ⟨"N title", "un", "KWCH", "dn"⟩).link
            = e.link ∧
          ((mkArticle kansas_outlets
              ⟨"N title", "un", "KWCH", "dn"⟩).is_kansas = true ↔
            ∃ o ∈ kansas_outlets, strContains e.source o = true) :=
  ⟨by decide, (claim_C7_regional_flag provW 3 true true).1 _ (by decide)⟩

/-- C10: a record dropped by a source filter leaves the loop state — in
particular the seen-titles set — unchanged, so a later record with an
identical cleaned title (and a different link) that passes the filters
and whose title is not otherwise seen is still kept. -/
theorem claim_C10_filters_before_title_dedup
    (o : List String) (g q : Bool) (st : List Article × List String)
    (e : Entry) (l : List Entry)
    (h : (g = true ∧ strContains e.source ".gov" = true) ∨
         (q = true ∧ strContains e.source "Quiver Quantitative" = true)) :
    (e :: l).foldl (step o g q) st = l.foldl (step o g q) st ∧
    (∀ e' : Entry,
       cleanedTitle e'.title e'.source = cleanedTitle e.title e.source →
       passFilters g q e' = true →
       cleanedTitle e'.title e'.source ∉ st.2 →
       mkArticle o e' ∈ ([e, e'].foldl (step o g q) st).1) := by
  have hpf : ¬(passFilters g q e = true) := by
    unfold passFilters
    rcases h with ⟨hg, hgov⟩ | ⟨hq, hqq⟩
    · rw [hg, hgov]; simp
    · rw [hq, hqq]; simp
  have hstep : step o g q st e = st := by
    rw [step_eq, if_neg hpf]
  constructor
  · rw [List.foldl_cons, hstep]
  · intro e' hsame hpf' hnot
    have hfold : [e, e'].foldl (step o g q) st = step o g q st e' := by
      rw [List.foldl_cons, hstep, List.foldl_cons, List.foldl_nil]
    rw [hfold, step_eq, if_pos hpf', if_neg hnot]
    exact List.mem_append_right _ (List.mem_singleton.mpr rfl)

/-- Witness for C10: a gov record is dropped without touching the state,
and a Kansas record with the same cleaned title "T" but another link is
kept right after it. -/
theorem claim_C10_filters_before_title_dedup_witness :
    ((true = true ∧ strContains "X.gov" ".gov" = true) ∨
      (true = true ∧ strContains "X.gov" "Quiver Quantitative" = true)) ∧
    ([(⟨"T - X.gov", "ug", "X.gov", "d"⟩ : Entry)].foldl
        (step kansas_outlets true true) ([], []) =
      ([] : List Entry).foldl (step kansas_outlets true true) ([], [])) ∧
    mkArticle kansas_outlets ⟨"T - KWCH", "uk", "KWCH", "d2"⟩ ∈
      ([⟨"T - X.gov", "ug", "X.gov", "d"⟩,
        ⟨"T - KWCH", "uk", "KWCH", "d2"⟩].foldl
        (step kansas_outlets true true) ([], [])).1 :=
  ⟨by decide,
   (claim_C10_filters_before_title_dedup kansas_outlets true true ([], [])
     ⟨"T - X.gov", "ug", "X.gov", "d"⟩ [] (by decide)).1,
   (claim_C10_filters_before_title_dedup kansas_outlets true true ([], [])
     ⟨"T - X.gov", "ug", "X.gov", "d"⟩ [] (by decide)).2
     ⟨"T - KWCH", "uk", "KWCH", "d2"⟩ (by decide) (by decide) (by decide)⟩

end App
